import Mathlib

/-
Verification development for the El-Shamela processor scripts.

The repository contains two categorization drivers over a stream of scrapped
parts: `processor.js` (the heuristic sequential strategy, inferring book and
chapter boundaries from header order and the `caption_id` grouping key) and
the navigation-reference processor (building a `searchReference` tree from
the site navigation bar, sorting it descending by page with `sortCallback`,
and resolving each hadith part with `getChapterBook`).  Both share the
content sanitizing replacement
`content.replace(/<(?:.|\n)*?>| &quot;|\d+ - /gm, c)` with `c` a single
space.  The definitions below embed those functions; machine integers are
modelled as `Nat`/`Int`, nullable JSON fields as `Option`, thrown exceptions
as `none` results, and the synchronous `writeFileSync` calls as explicit
lists of `(slot, record)` events.
-/
namespace Shamela

/--
A scrapped part as parsed from disk: the sequential `id`, the nullable
`hadith` attribute, the optional `caption_id` grouping key, and the raw
`content` text.  `none` models a null or absent JSON field.
-/
structure Part where
  id : Nat
  hadith : Option Int
  captionId : Option Int
  content : String
deriving DecidableEq, Repr

/--
JavaScript truthiness of the `hadith` field as used in `if (part.hadith)`:
null/absent and `0` are falsy, every other integer is truthy.
-/
def hadithTruthy : Option Int → Bool
  | none => false
  | some v => v != 0

/--
The `part.hadith < 0` test of the navigation-reference processor (false on a
null/absent field, as in JavaScript `null < 0`).
-/
def hadithNeg : Option Int → Bool
  | none => false
  | some v => v < 0

/--
The header test of the navigation-reference processor, literally
`!part.hadith || (part.hadith && part.hadith < 0)`.
-/
def isHeaderRef (h : Option Int) : Bool :=
  !hadithTruthy h || (hadithTruthy h && hadithNeg h)

/--
Carriage return and the Unicode line and paragraph separators: the characters
matched by neither `.` nor `\n` inside the tag alternative
`<(?:.|\n)*?>` of the sanitizing regex.
-/
def dotBlocker (c : Char) : Bool :=
  c = '\r' || c = Char.ofNat 0x2028 || c = Char.ofNat 0x2029

/--
Lazy scan for the end of a tag match `<(?:.|\n)*?>`: given the characters
after the opening `<`, return the characters after the first `>`, or `none`
when a character matchable by neither `.` nor `\n`, or the end of the input,
is reached first (the regex then fails at this `<`).
-/
def findTagEnd : List Char → Option (List Char)
  | [] => none
  | c :: cs => if c = '>' then some cs else if dotBlocker c then none else findTagEnd cs

/--
Match of the literal alternative ` &quot;` at a position whose leading space
has already been seen: the next six characters must be the quote entity.
-/
def stripQuot (xs : List Char) : Option (List Char) :=
  if xs.take 6 = ['&', 'q', 'u', 'o', 't', ';'] then some (xs.drop 6) else none

/--
Match of the alternative `\d+ - ` at a position starting with a digit: the
maximal digit run must be followed by space, dash, space (the greedy `\d+`
leaves no useful backtracking, because shorter digit runs are followed by a
digit rather than a space).
-/
def stripNum (xs : List Char) : Option (List Char) :=
  let rest := xs.dropWhile Char.isDigit
  if (xs.takeWhile Char.isDigit) ≠ [] ∧ rest.take 3 = [' ', '-', ' '] then some (rest.drop 3)
  else none

/--
One pass of `content.replace(/<(?:.|\n)*?>| &quot;|\d+ - /gm, c)` with `c` a
single space: a left-to-right scan in which, at each position, the three
alternatives start with pairwise distinct characters (`<`, space, digit), so
the ordered alternation reduces to this case split; a match is replaced by
one space and scanning resumes after it, otherwise one character is emitted
and the scan advances.  `fuel` bounds the recursion; every step consumes at
least one character, so `fuel = xs.length` computes the full pass.
-/
def sanitizeF : Nat → List Char → List Char
  | 0, xs => xs
  | _ + 1, [] => []
  | n + 1, c :: xs =>
    if c = '<' then
      match findTagEnd xs with
      | some r => ' ' :: sanitizeF n r
      | none => '<' :: sanitizeF n xs
    else if c = ' ' then
      match stripQuot xs with
      | some r => ' ' :: sanitizeF n r
      | none => ' ' :: sanitizeF n xs
    else if c.isDigit then
      match stripNum (c :: xs) with
      | some r => ' ' :: sanitizeF n r
      | none => c :: sanitizeF n xs
    else c :: sanitizeF n xs

/--
The sanitizing replacement on a character list.
-/
def sanitizeChars (xs : List Char) : List Char := sanitizeF xs.length xs

/--
The `clean` step of the normalizer: the sanitizing replacement applied to the
`content` string of a part, as performed by `processPart` and `readPart`.
-/
def sanitize (s : String) : String := String.mk (sanitizeChars s.data)

/--
A chapter entry of the navigation tree, as pushed by the scrapper:
`{name, page}` with `page` the part id at which the chapter begins.
-/
structure NavChapter where
  name : String
  page : Nat
deriving DecidableEq, Repr

/--
A book entry of the navigation tree: `{page, name, chapters}`.
-/
structure NavBook where
  name : String
  page : Nat
  chapters : List NavChapter
deriving DecidableEq, Repr

/--
The inner `chapters.some` scan of `getChapterBook`: chapters with
`page > partNo` are skipped and the scan stops at the first chapter with
`page ≤ partNo`.
-/
def findChapter : List NavChapter → Nat → Option NavChapter
  | [], _ => none
  | c :: cs, p => if c.page > p then findChapter cs p else some c

/--
`getChapterBook(books, partNo)`: the outer `books.some` skips books with
`page > partNo`; for a book with `page ≤ partNo` the inner scan looks for a
chapter with `page ≤ partNo`, and only when one is found are `book` and
`chapter` assigned together and the scan stopped.  When the inner scan finds
no chapter, the callback returns a falsy value and the outer scan continues
with the next (lower-page) book.  The unassigned `null` results are `none`.
-/
def getChapterBook : List NavBook → Nat → Option NavBook × Option NavChapter
  | [], _ => (none, none)
  | b :: bs, p =>
    if b.page > p then getChapterBook bs p
    else
      match findChapter b.chapters p with
      | some c => (some b, some c)
      | none => getChapterBook bs p

/--
Insertion step of a stable insertion sort by the boolean order `le`.
-/
def insertLe {α : Type} (le : α → α → Bool) (x : α) : List α → List α
  | [] => [x]
  | y :: ys => if le x y then x :: y :: ys else y :: insertLe le x ys

/--
Stable insertion sort by `le`, modelling `Array.prototype.sort` with a
comparator; on lists with pairwise distinct keys every comparison sort
produces this same result.
-/
def sortLe {α : Type} (le : α → α → Bool) : List α → List α
  | [] => []
  | x :: xs => insertLe le x (sortLe le xs)

/--
The order induced by `sortCallback` on books: it returns a negative number
exactly when the page of `a` exceeds the page of `b`, so the sorted array is
descending by page; `a` may stay before `b` iff the page of `b` is at most
the page of `a`.
-/
def bookGe (a b : NavBook) : Bool := b.page ≤ a.page

/--
The order induced by `sortCallback` on chapters: descending by page.
-/
def chapterGe (a b : NavChapter) : Bool := b.page ≤ a.page

/--
The sort performed on `searchReference` before `initCategorization`: books
sorted descending by page, then each chapter list sorted descending by page.
-/
def sortReference (books : List NavBook) : List NavBook :=
  (sortLe bookGe books).map fun b => { b with chapters := sortLe chapterGe b.chapters }

/--
A record written by the navigation-reference processor: the processed part
plus the optional `sourceName`, `book` and `chapter` fields attached before
`JSON.stringify`.  The `book` and `chapter` snapshots are re-read from
previously written records, hence the recursion.
-/
inductive OutRec where
  | mk (part : Part) (sourceName : Option String) (book chapter : Option OutRec) : OutRec

/--
The part carried by a written record.
-/
def OutRec.part : OutRec → Part
  | .mk p _ _ _ => p

/--
The `sourceName` field of a written record.
-/
def OutRec.sourceName : OutRec → Option String
  | .mk _ s _ _ => s

/--
The `book` field of a written record.
-/
def OutRec.book : OutRec → Option OutRec
  | .mk _ _ b _ => b

/--
The `chapter` field of a written record.
-/
def OutRec.chapter : OutRec → Option OutRec
  | .mk _ _ _ c => c

/--
The assignment `snapshot.sourceName = name` on a freshly re-read record.
-/
def OutRec.withSourceName : OutRec → String → OutRec
  | .mk p _ b c, n => .mk p (some n) b c

/--
Overwriting one slot of the output directory, modelled as a map from slot
number to the record it holds (`none` = no file written there yet).
-/
def storeWrite (store : Nat → Option OutRec) (i : Nat) (r : OutRec) : Nat → Option OutRec :=
  fun j => if j = i then some r else store j

/--
One iteration of the `initCategorization` loop for the (already sanitized)
part at position `i`, given the sorted navigation reference and the current
contents of the output directory.  The result is the ordered list of
`writeFileSync` events `(slot, record)` of the iteration, or `none` where
the script throws: a `TypeError` reading `.page` of a null lookup result, or
`readPart` of an output slot that was never written.  A header part is
written as-is; a hadith part is looked up with `getChapterBook` on its own
`id`, receives a `book` snapshot re-read from the output slot of the book
page, and then either is written twice (first without `chapter`, then with
the `chapter` snapshot re-read after the first write) when the chapter page
equals the part id, or is written once with the `chapter` snapshot.
-/
def catStep (ref : List NavBook) (store : Nat → Option OutRec) (i : Nat) (part : Part) :
    Option (List (Nat × OutRec)) :=
  if isHeaderRef part.hadith then some [(i, OutRec.mk part none none none)]
  else
    match getChapterBook ref part.id with
    | (some b, some c) =>
      match store b.page with
      | none => none
      | some bookRec =>
        let bookSnap := bookRec.withSourceName b.name
        if c.page = part.id then
          let first := OutRec.mk part none (some bookSnap) none
          let store2 := storeWrite store i first
          match store2 c.page with
          | none => none
          | some chapRec =>
            some [(i, first),
                  (i, OutRec.mk part none (some bookSnap) (some (chapRec.withSourceName c.name)))]
        else
          match store c.page with
          | none => none
          | some chapRec =>
            some [(i, OutRec.mk part none (some bookSnap) (some (chapRec.withSourceName c.name)))]
    | _ => none

/--
The mutable state of the `processor.js` categorization loop: the running
`book`, `chapter` and `firstPart` objects; `none` models the empty object
`{}` they are initialized and reset to.
-/
structure SeqState where
  book : Option Part
  chapter : Option Part
  firstPart : Option Part
deriving DecidableEq, Repr

/--
The conditional `firstPart.id ? firstPart : part`: the tracked first part is
used when present with a truthy `id`, otherwise the current part.
-/
def firstPartOr (fp : Option Part) (p : Part) : Part :=
  match fp with
  | some f => if f.id ≠ 0 then f else p
  | none => p

/--
A record written by `processor.js`: header parts are written as-is; hadith
parts additionally carry the running `book` and `chapter` objects, where
`none` stands for the empty object `{}`.
-/
inductive SeqOut where
  | header (part : Part) : SeqOut
  | hadith (part : Part) (book chapter : Option Part) : SeqOut
deriving DecidableEq, Repr

/--
The `processor.js` loop from position `i`, the parts still to be processed
standing at the head of the list.  The one-slot `nextPart` cache always
holds exactly the value `readPart(i+1)` returned, so it coincides with the
head of the remaining list and needs no separate state.  The result is the
ordered list of `writeFileSync` events together with a flag telling whether
the run aborts (`true` when the final part is a header, whose look-ahead
`readPart(i+1)` throws on the missing file — after the header itself was
already written).  A hadith part is written with the running `book` and
`chapter` attached and resets `firstPart` to `{}`.  A header part is written
as-is; then, when the next part is a header with the same `caption_id`
(JavaScript `===`, so two null keys compare equal), `firstPart` is
overwritten with the current part and control falls through to the chapter
assignment `chapter = firstPart.id ? firstPart : part`, which therefore
yields the current part; when the next part is a header with a different
`caption_id`, the current part (or the tracked `firstPart`) becomes `book`;
when the next part is a hadith, the current part (or the tracked
`firstPart`) becomes `chapter`.
-/
def seqRun (st : SeqState) (i : Nat) : List Part → List (Nat × SeqOut) × Bool
  | [] => ([], false)
  | p :: rest =>
    if hadithTruthy p.hadith then
      let next := seqRun { st with firstPart := none } (i + 1) rest
      ((i, SeqOut.hadith p st.book st.chapter) :: next.1, next.2)
    else
      match rest with
      | [] => ([(i, SeqOut.header p)], true)
      | np :: _ =>
        if !hadithTruthy np.hadith then
          if np.captionId = p.captionId then
            let next := seqRun { st with firstPart := some p, chapter := some p } (i + 1) rest
            ((i, SeqOut.header p) :: next.1, next.2)
          else
            let next := seqRun { st with book := some (firstPartOr st.firstPart p) } (i + 1) rest
            ((i, SeqOut.header p) :: next.1, next.2)
        else
          let next := seqRun { st with chapter := some (firstPartOr st.firstPart p) } (i + 1) rest
          ((i, SeqOut.header p) :: next.1, next.2)

/--
A full `processor.js` run over a directory of `parts.length` scrapped parts.
-/
def seqProcess (parts : List Part) : List (Nat × SeqOut) × Bool :=
  seqRun ⟨none, none, none⟩ 1 parts

/--
The inner chapter scan is the first chapter whose page is at most the query.
-/
theorem findChapter_eq_find? (cs : List NavChapter) (p : Nat) :
    findChapter cs p = cs.find? fun c => decide (c.page ≤ p) := by
  induction cs with
  | nil => rfl
  | cons c cs ih =>
    by_cases h : c.page > p
    · have hx : (decide (c.page ≤ p)) = false := by simp; omega
      simp [findChapter, h, List.find?_cons, hx, ih]
    · have hx : (decide (c.page ≤ p)) = true := by simp; omega
      simp [findChapter, h, List.find?_cons, hx]

/--
Characterization of `getChapterBook`: the scan settles on the first book
whose page is at most the query and whose chapter list contains some chapter
with page at most the query; inside that book the first such chapter is
taken; when no book qualifies both components stay null.
-/
theorem getChapterBook_eq_find? (books : List NavBook) (p : Nat) :
    getChapterBook books p =
      match books.find? (fun b => decide (b.page ≤ p) &&
          b.chapters.any fun c => decide (c.page ≤ p)) with
      | some b => (some b, b.chapters.find? fun c => decide (c.page ≤ p))
      | none => (none, none) := by
  induction books with
  | nil => rfl
  | cons b bs ih =>
    by_cases h : b.page > p
    · have hx : (decide (b.page ≤ p) && b.chapters.any fun c => decide (c.page ≤ p)) = false := by
        simp; omega
      simp [getChapterBook, h, List.find?_cons, hx, ih]
    · cases hfc : findChapter b.chapters p with
      | none =>
        have hfind : (b.chapters.find? fun c => decide (c.page ≤ p)) = none := by
          rw [← findChapter_eq_find?]; exact hfc
        have hany : (b.chapters.any fun c => decide (c.page ≤ p)) = false := by
          rw [List.find?_eq_none] at hfind
          simp only [List.any_eq_true] at *
          simp only [Bool.not_eq_true] at *
          by_contra hcon
          rcases Bool.not_eq_false _ |>.mp hcon |> List.any_eq_true.mp with ⟨c, hc, hcp⟩
          exact absurd hcp (by simpa using hfind c hc)
        have hx : (decide (b.page ≤ p) && b.chapters.any fun c => decide (c.page ≤ p)) = false := by
          simp [hany]
        simp [getChapterBook, h, hfc, List.find?_cons, hx, ih]
      | some c =>
        have hfind : (b.chapters.find? fun c => decide (c.page ≤ p)) = some c := by
          rw [← findChapter_eq_find?]; exact hfc
        have hany : (b.chapters.any fun c => decide (c.page ≤ p)) = true := by
          refine List.any_eq_true.mpr ⟨c, List.mem_of_find?_eq_some hfind, ?_⟩
          have := List.find?_some hfind
          simpa using this
        have hx : (decide (b.page ≤ p) && b.chapters.any fun c => decide (c.page ≤ p)) = true := by
          simp [hany]; omega
        simp [getChapterBook, h, hfc, List.find?_cons, hx, hfind]

/--
C1 (counterexample): a part whose hadith attribute is strictly negative is
treated as a header by the navigation-reference processor but as a hadith
(content) by the heuristic `processor.js`, whose test `if (part.hadith)` is
plain truthiness: running the heuristic on a single part with `hadith = -1`
emits it as a content record, not a header record.  This refutes the claim
that in both strategies a negative hadith value is treated as a header.
-/
theorem c1_counterexample :
    isHeaderRef (some (-1)) = true ∧ hadithTruthy (some (-1)) = true ∧
    (seqProcess [⟨1, some (-1), none, "x"⟩]).1 =
      [(1, SeqOut.hadith ⟨1, some (-1), none, "x"⟩ none none)] := by
  exact ⟨rfl, rfl, rfl⟩

/--
C1 (amended): the navigation-reference processor treats a part as content
iff its hadith attribute is present and strictly positive (null, zero and
negative values are headers), while the heuristic `processor.js` treats a
part as content iff the hadith attribute is present and nonzero, so a
strictly negative hadith is content there.
-/
theorem c1_theorem (h : Option Int) :
    (isHeaderRef h = false ↔ ∃ v, h = some v ∧ 0 < v) ∧
    (hadithTruthy h = true ↔ ∃ v, h = some v ∧ v ≠ 0) := by
  cases h with
  | none => constructor <;> simp [isHeaderRef, hadithTruthy, hadithNeg]
  | some v =>
    constructor
    · simp [isHeaderRef, hadithTruthy, hadithNeg]
      omega
    · simp [hadithTruthy]

/--
First book of the C3 counterexample tree: page 5, single chapter at page 7.
-/
def cexBookHigh : NavBook := ⟨"bHigh", 5, [⟨"cHigh", 7⟩]⟩

/--
Second book of the C3 counterexample tree: page 1, single chapter at page 2.
-/
def cexBookLow : NavBook := ⟨"bLow", 1, [⟨"cLow", 2⟩]⟩

/--
C3 (counterexample): on the descending-sorted reference
`[{page 5, chapters [{page 7}]}, {page 1, chapters [{page 2}]}]` and query
`partNo = 5`, the first book with page at most 5 is the page-5 book, and none
of its chapters has page at most 5 — yet the lookup does not stop there and
does not return null: it falls through and returns the lower page-1 book
with its page-2 chapter.  This refutes the claim that the scan stops at the
first book whose page is at most the query and never falls through to a
lower-page book.
-/
theorem c3_counterexample :
    cexBookHigh.page ≤ 5 ∧ (∀ c ∈ cexBookHigh.chapters, ¬ c.page ≤ 5) ∧
    getChapterBook [cexBookHigh, cexBookLow] 5 = (some cexBookLow, some ⟨"cLow", 2⟩) ∧
    cexBookLow ≠ cexBookHigh := by
  refine ⟨by decide, by decide, by decide, by decide⟩

/--
C3 (amended): the scan settles on the first descending-sorted book whose
page is at most `partNo` and which moreover contains a chapter with page at
most `partNo`; a candidate book without such a chapter is skipped and the
scan falls through to lower-page books; the lookup returns null for both
components exactly when no book satisfies both conditions (the driver then
throws reading `.page` of null).
-/
theorem c3_theorem (books : List NavBook) (p : Nat) :
    getChapterBook books p =
      match books.find? (fun b => decide (b.page ≤ p) &&
          b.chapters.any fun c => decide (c.page ≤ p)) with
      | some b => (some b, b.chapters.find? fun c => decide (c.page ≤ p))
      | none => (none, none) :=
  getChapterBook_eq_find? books p

/--
C9: `getChapterBook` is total and its two components are assigned together:
for every book list and query the result is either null in both components,
or a book from the list paired with a chapter drawn from that same book.
-/
theorem c9_theorem (books : List NavBook) (p : Nat) :
    getChapterBook books p = (none, none) ∨
    ∃ b c, b ∈ books ∧ c ∈ b.chapters ∧ getChapterBook books p = (some b, some c) := by
  rw [getChapterBook_eq_find? books p]
  cases hfb : books.find? (fun b => decide (b.page ≤ p) &&
      b.chapters.any fun c => decide (c.page ≤ p)) with
  | none => exact Or.inl rfl
  | some b =>
    have hb : b ∈ books := List.mem_of_find?_eq_some hfb
    have hpred := List.find?_some hfb
    have hany : (b.chapters.any fun c => decide (c.page ≤ p)) = true := by
      simp only [Bool.and_eq_true] at hpred
      exact hpred.2
    have : ∃ c ∈ b.chapters, decide (c.page ≤ p) = true := by
      simpa using List.any_eq_true.mp hany
    rcases this with ⟨c0, hc0, _⟩
    cases hfc : b.chapters.find? (fun c => decide (c.page ≤ p)) with
    | none =>
      rw [List.find?_eq_none] at hfc
      exact absurd ‹decide (c0.page ≤ p) = true› (by simpa using hfc c0 hc0)
    | some c =>
      exact Or.inr ⟨b, c, hb, List.mem_of_find?_eq_some hfc, by simp [hfc]⟩

/--
C8 (counterexample): sanitizing `<b>3 - text &quot;here</b>` does not yield
three leading spaces, the word `text`, two spaces and `here`: the quote
entity alternative ` &quot;` consumes the space before it, and the closing
tag leaves a trailing space.
-/
theorem c8_counterexample :
    sanitize "<b>3 - text &quot;here</b>" ≠ "   text  here" := by decide

/--
C8 (amended): sanitizing `<b>3 - text &quot;here</b>` yields two leading
spaces (one for the opening tag, one for the numbering prefix `3 - ` which
already includes the space before `text`), then `text`, one space (the
` &quot;` match includes the space after `text`), then `here`, then one
trailing space for the closing tag.
-/
theorem c8_theorem :
    sanitize "<b>3 - text &quot;here</b>" = "  text here " := by decide

/--
The C4 failing input: three consecutive header parts sharing the non-null
grouping key `caption_id = 7`, followed by one hadith part.
-/
def groupOfThree : List Part :=
  [⟨1, none, some 7, "g1"⟩, ⟨2, none, some 7, "g2"⟩, ⟨3, none, some 7, "g3"⟩,
   ⟨4, some 9, none, "c4"⟩]

/--
C4 (divergence): on three consecutive headers sharing `caption_id = 7`
followed by a hadith, `processor.js` attaches to the hadith the chapter
snapshot of the second header of the group, not the first: the assignment
`firstPart = part` runs again on every same-caption step, so after the
group `firstPart` holds the next-to-last duplicate.  This contradicts both
the claim and the comments in `processor.js` itself, which state that the
first part of a multi-part group is the one tracked and taken as the
chapter.
-/
theorem c4_theorem :
    (seqProcess groupOfThree).1[3]? =
      some (4, SeqOut.hadith ⟨4, some 9, none, "c4"⟩ none (some ⟨2, none, some 7, "g2"⟩)) ∧
    (⟨2, none, some 7, "g2"⟩ : Part) ≠ ⟨1, none, some 7, "g1"⟩ := by
  exact ⟨rfl, by decide⟩

/--
The C5 failing input: the six-part stream of the spec scenario, headers with
null grouping keys and hadith parts with markers 5 and 1.
-/
def sixPartStream : List Part :=
  [⟨1, none, none, "h1"⟩, ⟨2, none, none, "h2"⟩, ⟨3, some 5, none, "c3"⟩,
   ⟨4, none, none, "h4"⟩, ⟨5, none, none, "h5"⟩, ⟨6, some 1, none, "c6"⟩]

/--
C5 (divergence): on the six-part stream
`[1:HEADER(null), 2:HEADER(null), 3:CONTENT(5), 4:HEADER(null), 5:HEADER(null),
6:CONTENT(1)]` the claim expects part 1 to become the book and part 2 the
chapter (and likewise 4 and 5).  The code instead compares the null grouping
keys with `===`, which makes two consecutive null-key headers a multi-part
group: part 1 is stored as `firstPart` and becomes the chapter, no book is
ever assigned, and part 3 is emitted with the empty-object book and part 1
as chapter (likewise part 6 with part 4 as chapter).  This contradicts the
categorization theory documented at the top of `processor.js`.
-/
theorem c5_theorem :
    (seqProcess sixPartStream).1 =
      [(1, SeqOut.header ⟨1, none, none, "h1"⟩),
       (2, SeqOut.header ⟨2, none, none, "h2"⟩),
       (3, SeqOut.hadith ⟨3, some 5, none, "c3"⟩ none (some ⟨1, none, none, "h1"⟩)),
       (4, SeqOut.header ⟨4, none, none, "h4"⟩),
       (5, SeqOut.header ⟨5, none, none, "h5"⟩),
       (6, SeqOut.hadith ⟨6, some 1, none, "c6"⟩ none (some ⟨4, none, none, "h4"⟩))] := by
  rfl

/--
Auxiliary for C10: as long as every part processed so far is a hadith, the
running book and chapter stay at their value and each hadith is emitted with
them attached; position `k` of the output stream is the record of part `k+1`.
-/
theorem seqRun_all_hadith (parts : List Part) (k i : Nat) (part : Part) (fp : Option Part)
    (bk ch : Option Part)
    (hget : parts[k]? = some part)
    (hall : ∀ j q, j ≤ k → parts[j]? = some q → hadithTruthy q.hadith = true) :
    (seqRun ⟨bk, ch, fp⟩ i parts).1[k]? = some (i + k, SeqOut.hadith part bk ch) := by
  induction parts generalizing k i fp with
  | nil => simp at hget
  | cons p rest ih =>
    have hp : hadithTruthy p.hadith = true := hall 0 p (Nat.zero_le k) (by simp)
    cases k with
    | zero =>
      simp at hget
      subst hget
      simp [seqRun, hp]
    | succ k =>
      simp only [List.getElem?_cons_succ] at hget
      have := ih k (i + 1) none hget
        (fun j q hj hq => hall (j + 1) q (Nat.succ_le_succ hj) (by simpa using hq))
      simp only [seqRun, hp, if_pos]
      simpa [Nat.add_comm, Nat.add_assoc, Nat.add_left_comm] using this

/--
C10: a hadith part that occurs before any header has been processed is still
emitted (not rejected or skipped), with the empty-object book and chapter of
the initial state attached: if every part up to position `k` of the stream
is a hadith, the record written for the part at position `k` is a content
record carrying `book = {}` and `chapter = {}`.
-/
theorem c10_theorem (parts : List Part) (k : Nat) (part : Part)
    (hget : parts[k]? = some part)
    (hall : ∀ j q, j ≤ k → parts[j]? = some q → hadithTruthy q.hadith = true) :
    (seqProcess parts).1[k]? = some (1 + k, SeqOut.hadith part none none) :=
  seqRun_all_hadith parts k 1 part none none none hget hall

/--
C10 (witness): the single-part stream whose only part is a hadith is emitted
with empty-object book and chapter.
-/
theorem c10_witness :
    (seqProcess [⟨1, some 2, none, "x"⟩]).1[0]? =
      some (1 + 0, SeqOut.hadith ⟨1, some 2, none, "x"⟩ none none) :=
  c10_theorem [⟨1, some 2, none, "x"⟩] 0 ⟨1, some 2, none, "x"⟩ rfl
    (fun j q hj hq => by
      interval_cases j
      · simp at hq
        subst hq
        rfl)

/--
If every chapter before position `j` starts above the query and the chapter
at position `j` starts at or below it, the inner scan stops exactly there.
-/
theorem findChapter_first (cs : List NavChapter) (p j : Nat) (c : NavChapter)
    (hj : cs[j]? = some c) (hcp : c.page ≤ p)
    (hfirst : ∀ k c2, k < j → cs[k]? = some c2 → p < c2.page) :
    findChapter cs p = some c := by
  induction cs generalizing j with
  | nil => simp at hj
  | cons c0 cs ih =>
    cases j with
    | zero =>
      simp at hj
      subst hj
      simp [findChapter]
      omega
    | succ j =>
      have h0 : p < c0.page := hfirst 0 c0 (Nat.succ_pos j) (by simp)
      simp only [List.getElem?_cons_succ] at hj
      have hrec := ih j hj
        (fun k c2 hk hget => hfirst (k + 1) c2 (Nat.succ_lt_succ hk) (by simpa using hget))
      simpa [findChapter, show c0.page > p from h0] using hrec

/--
If every book before position `i` starts above the query, the book at
position `i` starts at or below it, and inside that book the chapter at
position `j` is the first one starting at or below the query, the lookup
returns exactly that book and chapter.
-/
theorem getChapterBook_first (books : List NavBook) (p i j : Nat) (b : NavBook) (c : NavChapter)
    (hib : books[i]? = some b) (hbp : b.page ≤ p)
    (hbfirst : ∀ k b2, k < i → books[k]? = some b2 → p < b2.page)
    (hjc : b.chapters[j]? = some c) (hcp : c.page ≤ p)
    (hcfirst : ∀ k c2, k < j → b.chapters[k]? = some c2 → p < c2.page) :
    getChapterBook books p = (some b, some c) := by
  induction books generalizing i with
  | nil => simp at hib
  | cons b0 bs ih =>
    cases i with
    | zero =>
      have hb0 : b0 = b := by simpa using hib
      subst hb0
      have hfc : findChapter b0.chapters p = some c :=
        findChapter_first b0.chapters p j c hjc hcp hcfirst
      simp [getChapterBook, show ¬ p < b0.page by omega, hfc]
    | succ i =>
      have h0 : p < b0.page := hbfirst 0 b0 (Nat.succ_pos i) (by simp)
      simp only [List.getElem?_cons_succ] at hib
      have hrec := ih i hib
        (fun k b2 hk hget => hbfirst (k + 1) b2 (Nat.succ_lt_succ hk) (by simpa using hget))
      simpa [getChapterBook, show b0.page > p from h0] using hrec

/--
A pairwise relation holds between the elements at two indexed positions.
-/
theorem pairwise_at {A : Type} {R : A → A → Prop} {l : List A} (h : l.Pairwise R)
    {j k : Nat} {x y : A} (hjk : j < k) (hx : l[j]? = some x) (hy : l[k]? = some y) :
    R x y := by
  obtain ⟨hj, hxe⟩ := List.getElem?_eq_some_iff.mp hx
  obtain ⟨hk, hye⟩ := List.getElem?_eq_some_iff.mp hy
  subst hxe
  subst hye
  exact List.pairwise_iff_getElem.mp h j k hj hk hjk

/--
In a descending-sorted list, if the element right before position `i` (the
next enclosing interval in ascending order) starts above the query, then so
does every earlier element.
-/
theorem desc_all_above {α : Type} (key : α → Nat) (l : List α) (p i : Nat)
    (hPW : l.Pairwise fun a a2 => key a2 < key a)
    (hlen : i < l.length)
    (hnext : ∀ k x, k + 1 = i → l[k]? = some x → p < key x) :
    ∀ k x, k < i → l[k]? = some x → p < key x := by
  intro k x hk hget
  rcases Nat.lt_or_ge (k + 1) i with hlt | hge
  · cases hx1 : l[i - 1]? with
    | none =>
      rw [List.getElem?_eq_none_iff] at hx1
      omega
    | some x1 =>
      have hprev : p < key x1 := hnext (i - 1) x1 (by omega) hx1
      have hrel : key x1 < key x :=
        pairwise_at hPW (show k < i - 1 by omega) hget hx1
      omega
  · have hk1 : k + 1 = i := by omega
    exact hnext k x hk1 hget

/--
The concrete navigation tree of the C2 scenario, in its scrapped ascending
order: a book at page 1 with chapters at pages 2 and 10, then a book at
page 20 with one chapter at page 21.
-/
def navExample : List NavBook :=
  [⟨"b1", 1, [⟨"c1", 2⟩, ⟨"c2", 10⟩]⟩, ⟨"b2", 20, [⟨"c3", 21⟩]⟩]

/--
C2: in a descending-sorted navigation tree (books strictly descending by
page, chapters of the relevant book strictly descending by page), for every
query `p` at or after the page of the book at position `i` and strictly
before the page of the previous book (its successor in ascending order),
and likewise within the book for the chapter at position `j`, the lookup
returns exactly that book and chapter.  In particular, sorting the tree
`[{page 1, chapters [2, 10]}, {page 20, chapters [21]}]` descending and
querying part 15 yields the page-1 book and its page-10 chapter.
-/
theorem c2_theorem :
    (∀ (books : List NavBook) (p i j : Nat) (b : NavBook) (c : NavChapter),
      books.Pairwise (fun a a2 => a2.page < a.page) →
      b.chapters.Pairwise (fun x y => y.page < x.page) →
      books[i]? = some b → b.page ≤ p →
      (∀ k b2, k + 1 = i → books[k]? = some b2 → p < b2.page) →
      b.chapters[j]? = some c → c.page ≤ p →
      (∀ k c2, k + 1 = j → b.chapters[k]? = some c2 → p < c2.page) →
      getChapterBook books p = (some b, some c)) ∧
    getChapterBook (sortReference navExample) 15 =
      (some ⟨"b1", 1, [⟨"c2", 10⟩, ⟨"c1", 2⟩]⟩, some ⟨"c2", 10⟩) := by
  constructor
  · intro books p i j b c hPWb hPWc hib hbp hbnext hjc hcp hcnext
    have hilen : i < books.length := (List.getElem?_eq_some_iff.mp hib).1
    have hjlen : j < b.chapters.length := (List.getElem?_eq_some_iff.mp hjc).1
    exact getChapterBook_first books p i j b c hib hbp
      (desc_all_above NavBook.page books p i hPWb hilen hbnext) hjc hcp
      (desc_all_above NavChapter.page b.chapters p j hPWc hjlen hcnext)
  · decide

/--
C2 (witness): the general interval-lookup statement applied to the sorted
concrete tree at query 15, book position 1 and chapter position 0.
-/
theorem c2_witness :
    getChapterBook [⟨"b2", 20, [⟨"c3", 21⟩]⟩, ⟨"b1", 1, [⟨"c2", 10⟩, ⟨"c1", 2⟩]⟩] 15 =
      (some ⟨"b1", 1, [⟨"c2", 10⟩, ⟨"c1", 2⟩]⟩, some ⟨"c2", 10⟩) := by
  refine c2_theorem.1 _ 15 1 0 _ _ ?_ ?_ ?_ ?_ ?_ ?_ ?_ ?_
  · decide
  · decide
  · decide
  · decide
  · intro k b2 hk hget
    have hk0 : k = 0 := by omega
    subst hk0
    simp at hget
    subst hget
    decide
  · decide
  · decide
  · intro k c2 hk hget
    omega

/--
C6: in the navigation-reference driver, a hadith part whose resolved chapter
page equals its own id is written exactly twice to its own output slot: the
first record carries the book snapshot and no chapter field; the second
record (overwriting the first in the same slot) additionally carries the
chapter snapshot, which is the just-written first record re-read from the
slot, with the chapter name attached as `sourceName`.  In every other case
(the resolved chapter page differing from the part id, with the chapter
output record present), the part is written exactly once, with both book
and chapter snapshots.
-/
theorem c6_theorem (ref : List NavBook) (store : Nat → Option OutRec) (i : Nat) (part : Part)
    (b : NavBook) (c : NavChapter) (bookRec : OutRec)
    (hcontent : isHeaderRef part.hadith = false)
    (hlook : getChapterBook ref part.id = (some b, some c))
    (hbook : store b.page = some bookRec)
    (hid : part.id = i) :
    (c.page = part.id →
      catStep ref store i part =
        some [(i, OutRec.mk part none (some (bookRec.withSourceName b.name)) none),
              (i, OutRec.mk part none (some (bookRec.withSourceName b.name))
                 (some ((OutRec.mk part none (some (bookRec.withSourceName b.name))
                    none).withSourceName c.name)))]) ∧
    (∀ chapRec, c.page ≠ part.id → store c.page = some chapRec →
      catStep ref store i part =
        some [(i, OutRec.mk part none (some (bookRec.withSourceName b.name))
                 (some (chapRec.withSourceName c.name)))]) := by
  constructor
  · intro hceq
    have hci : c.page = i := by rw [hceq, hid]
    simp only [catStep, hcontent, Bool.false_eq_true, if_false, hlook, hbook]
    rw [if_pos hceq]
    simp [storeWrite, hci]
  · intro chapRec hcne hchap
    simp only [catStep, hcontent, Bool.false_eq_true, if_false, hlook, hbook]
    rw [if_neg hcne]
    simp [hchap]

/--
The one-book one-chapter navigation reference of the C6 witness.
-/
def wRef : List NavBook := [⟨"B", 1, [⟨"C", 2⟩]⟩]

/--
The header record occupying output slot 1 in the C6 witness store.
-/
def wHeader : OutRec := OutRec.mk ⟨1, none, none, "bh"⟩ none none none

/--
The C6 witness store: slot 1 holds the book header record.
-/
def wStore : Nat → Option OutRec := fun j => if j = 1 then some wHeader else none

/--
The C6 witness hadith part: id 2, equal to the page of the resolved chapter.
-/
def wPart : Part := ⟨2, some 3, none, "txt"⟩

/--
C6 (witness): the double-write conclusion instantiated at a part whose id
equals the resolved chapter page.
-/
theorem c6_witness :
    catStep wRef wStore 2 wPart =
      some [(2, OutRec.mk wPart none (some (wHeader.withSourceName "B")) none),
            (2, OutRec.mk wPart none (some (wHeader.withSourceName "B"))
               (some ((OutRec.mk wPart none (some (wHeader.withSourceName "B"))
                  none).withSourceName "C")))] :=
  (c6_theorem wRef wStore 2 wPart ⟨"B", 1, [⟨"C", 2⟩]⟩ ⟨"C", 2⟩ wHeader rfl rfl rfl rfl).1 rfl

/--
Any amount of fuel sanitizes the empty text to the empty text.
-/
theorem sanitizeF_nil (n : Nat) : sanitizeF n [] = [] := by
  cases n <;> rfl

/--
The characters after a found tag end are among the scanned characters.
-/
theorem findTagEnd_subset {cs r : List Char} (h : findTagEnd cs = some r) :
    ∀ a ∈ r, a ∈ cs := by
  induction cs with
  | nil => simp [findTagEnd] at h
  | cons c cs ih =>
    intro a ha
    by_cases hc : c = '>'
    · simp [findTagEnd, hc] at h
      subst h
      exact List.mem_cons_of_mem _ ha
    · by_cases hd : dotBlocker c
      · simp [findTagEnd, hc, hd] at h
      · simp only [findTagEnd, if_neg hc, hd, Bool.false_eq_true, if_false] at h
        exact List.mem_cons_of_mem _ (ih h a ha)

/--
A found tag match consumes at least the closing bracket.
-/
theorem findTagEnd_length {cs r : List Char} (h : findTagEnd cs = some r) :
    r.length < cs.length := by
  induction cs with
  | nil => simp [findTagEnd] at h
  | cons c cs ih =>
    by_cases hc : c = '>'
    · simp [findTagEnd, hc] at h
      subst h
      simp
    · by_cases hd : dotBlocker c
      · simp [findTagEnd, hc, hd] at h
      · simp only [findTagEnd, if_neg hc, hd, Bool.false_eq_true, if_false] at h
        exact Nat.lt_trans (ih h) (by simp)

/--
Without a closing bracket the tag scan fails.
-/
theorem findTagEnd_eq_none {cs : List Char} (h : '>' ∉ cs) : findTagEnd cs = none := by
  induction cs with
  | nil => rfl
  | cons c cs ih =>
    have hc : c ≠ '>' := fun he => h (he ▸ List.mem_cons_self c cs)
    have : '>' ∉ cs := fun hm => h (List.mem_cons_of_mem _ hm)
    by_cases hd : dotBlocker c
    · simp [findTagEnd, hc, hd]
    · simp only [findTagEnd, hd, Bool.false_eq_true, if_false, ih this, ite_eq_right_iff]
      intro he
      exact absurd he hc

/--
On text free of the unmatchable characters, a failed tag scan means there is
no closing bracket at all.
-/
theorem findTagEnd_none_no_gt {cs : List Char}
    (hb : ∀ a ∈ cs, dotBlocker a = false) (h : findTagEnd cs = none) : '>' ∉ cs := by
  induction cs with
  | nil => simp
  | cons c cs ih =>
    by_cases hc : c = '>'
    · simp [findTagEnd, hc] at h
    · have hd : dotBlocker c = false := hb c (List.mem_cons_self c cs)
      simp only [findTagEnd, if_neg hc, hd, Bool.false_eq_true, if_false] at h
      have := ih (fun a ha => hb a (List.mem_cons_of_mem _ ha)) h
      simp [hc, this]
      intro he
      exact absurd (Eq.symm he) hc

/--
A successful quote-entity match splits the text after its six characters.
-/
theorem stripQuot_some {xs r : List Char} (h : stripQuot xs = some r) :
    xs.take 6 = ['&', 'q', 'u', 'o', 't', ';'] ∧ r = xs.drop 6 := by
  by_cases hx : xs.take 6 = ['&', 'q', 'u', 'o', 't', ';']
  · simp [stripQuot, hx] at h
    exact ⟨hx, h.symm⟩
  · simp [stripQuot, hx] at h

/--
Text without an ampersand cannot contain the quote entity.
-/
theorem stripQuot_none_of_no_amp {xs : List Char} (h : '&' ∉ xs) : stripQuot xs = none := by
  by_cases hx : xs.take 6 = ['&', 'q', 'u', 'o', 't', ';']
  · exfalso
    apply h
    apply List.take_subset 6 xs
    rw [hx]
    simp
  · simp [stripQuot, hx]

/--
A successful numbering-prefix match drops the digit run and the three
characters space, dash, space.
-/
theorem stripNum_some {xs r : List Char} (h : stripNum xs = some r) :
    xs.takeWhile Char.isDigit ≠ [] ∧
    (xs.dropWhile Char.isDigit).take 3 = [' ', '-', ' '] ∧
    r = (xs.dropWhile Char.isDigit).drop 3 := by
  simp only [stripNum] at h
  split at h
  · rename_i hcond
    have hr : r = (xs.dropWhile Char.isDigit).drop 3 := by
      injection h with h2
      exact h2.symm
    exact ⟨hcond.1, hcond.2, hr⟩
  · exact absurd h (by simp)

/--
Text without a dash cannot contain the numbering prefix.
-/
theorem stripNum_none_of_no_dash {xs : List Char} (h : '-' ∉ xs) : stripNum xs = none := by
  simp only [stripNum]
  split
  · rename_i hcond
    exfalso
    apply h
    have : '-' ∈ (xs.dropWhile Char.isDigit).take 3 := by
      rw [hcond.2]
      simp
    exact (List.dropWhile_sublist Char.isDigit).subset (List.take_subset _ _ this)
  · rfl

/--
A successful numbering-prefix match consumes at least the digit run.
-/
theorem stripNum_length {xs r : List Char} (h : stripNum xs = some r) :
    r.length < xs.length := by
  rcases stripNum_some h with ⟨hne, _, hr⟩
  have hsplit : (xs.takeWhile Char.isDigit).length + (xs.dropWhile Char.isDigit).length
      = xs.length := by
    rw [← List.length_append, List.takeWhile_append_dropWhile]
  have h1 : 1 ≤ (xs.takeWhile Char.isDigit).length := by
    cases hx : xs.takeWhile Char.isDigit with
    | nil => exact absurd hx hne
    | cons a l => simp
  have h2 : r.length ≤ (xs.dropWhile Char.isDigit).length := by
    rw [hr]
    simp
  omega

/--
Reduction of one sanitizing step: opening bracket with a found tag end.
-/
theorem sanitizeF_tag_some {n : Nat} {l r : List Char} (h : findTagEnd l = some r) :
    sanitizeF (n + 1) ('<' :: l) = ' ' :: sanitizeF n r := by
  simp [sanitizeF, h]

/--
Reduction of one sanitizing step: opening bracket without a tag end.
-/
theorem sanitizeF_tag_none {n : Nat} {l : List Char} (h : findTagEnd l = none) :
    sanitizeF (n + 1) ('<' :: l) = '<' :: sanitizeF n l := by
  simp [sanitizeF, h]

/--
Reduction of one sanitizing step: space followed by the quote entity.
-/
theorem sanitizeF_quot_some {n : Nat} {l r : List Char} (h : stripQuot l = some r) :
    sanitizeF (n + 1) (' ' :: l) = ' ' :: sanitizeF n r := by
  simp [sanitizeF, h]

/--
Reduction of one sanitizing step: space not followed by the quote entity.
-/
theorem sanitizeF_quot_none {n : Nat} {l : List Char} (h : stripQuot l = none) :
    sanitizeF (n + 1) (' ' :: l) = ' ' :: sanitizeF n l := by
  simp [sanitizeF, h]

/--
Reduction of one sanitizing step: digit starting a numbering prefix.
-/
theorem sanitizeF_num_some {n : Nat} {c : Char} {l r : List Char}
    (hc : c.isDigit = true) (h : stripNum (c :: l) = some r) :
    sanitizeF (n + 1) (c :: l) = ' ' :: sanitizeF n r := by
  have h1 : ¬ c = '<' := by
    intro he
    subst he
    simp [Char.isDigit] at hc
  have h2 : ¬ c = ' ' := by
    intro he
    subst he
    simp [Char.isDigit] at hc
  simp [sanitizeF, h1, h2, hc, h]

/--
Reduction of one sanitizing step: digit not starting a numbering prefix.
-/
theorem sanitizeF_num_none {n : Nat} {c : Char} {l : List Char}
    (hc : c.isDigit = true) (h : stripNum (c :: l) = none) :
    sanitizeF (n + 1) (c :: l) = c :: sanitizeF n l := by
  have h1 : ¬ c = '<' := by
    intro he
    subst he
    simp [Char.isDigit] at hc
  have h2 : ¬ c = ' ' := by
    intro he
    subst he
    simp [Char.isDigit] at hc
  simp [sanitizeF, h1, h2, hc, h]

/--
Reduction of one sanitizing step: a character starting no alternative.
-/
theorem sanitizeF_other {n : Nat} {c : Char} {l : List Char}
    (h1 : ¬ c = '<') (h2 : ¬ c = ' ') (h3 : c.isDigit = false) :
    sanitizeF (n + 1) (c :: l) = c :: sanitizeF n l := by
  simp [sanitizeF, h1, h2, h3]

/--
Every character of a sanitized text is a character of the input or the
replacement space.
-/
theorem sanitizeF_subset (n : Nat) :
    ∀ (xs : List Char) (a : Char), a ∈ sanitizeF n xs → a ∈ xs ∨ a = ' ' := by
  induction n with
  | zero => exact fun xs a ha => Or.inl ha
  | succ n ih =>
    intro xs a ha
    cases xs with
    | nil => simp [sanitizeF] at ha
    | cons c l =>
      by_cases hc : c = '<'
      · subst hc
        cases hft : findTagEnd l with
        | some r =>
          rw [sanitizeF_tag_some hft, List.mem_cons] at ha
          rcases ha with ha | ha
          · exact Or.inr ha
          · rcases ih r a ha with h | h
            · exact Or.inl (List.mem_cons_of_mem _ (findTagEnd_subset hft a h))
            · exact Or.inr h
        | none =>
          rw [sanitizeF_tag_none hft, List.mem_cons] at ha
          rcases ha with ha | ha
          · exact Or.inl (ha ▸ List.mem_cons_self _ _)
          · rcases ih l a ha with h | h
            · exact Or.inl (List.mem_cons_of_mem _ h)
            · exact Or.inr h
      · by_cases hs : c = ' '
        · subst hs
          cases hq : stripQuot l with
          | some r =>
            rw [sanitizeF_quot_some hq, List.mem_cons] at ha
            rcases ha with ha | ha
            · exact Or.inr ha
            · rcases ih r a ha with h | h
              · have hr : r = l.drop 6 := (stripQuot_some hq).2
                exact Or.inl (List.mem_cons_of_mem _ (List.drop_subset 6 l (hr ▸ h)))
              · exact Or.inr h
          | none =>
            rw [sanitizeF_quot_none hq, List.mem_cons] at ha
            rcases ha with ha | ha
            · exact Or.inr ha
            · rcases ih l a ha with h | h
              · exact Or.inl (List.mem_cons_of_mem _ h)
              · exact Or.inr h
        · by_cases hd : c.isDigit
          · cases hnum : stripNum (c :: l) with
            | some r =>
              rw [sanitizeF_num_some hd hnum, List.mem_cons] at ha
              rcases ha with ha | ha
              · exact Or.inr ha
              · rcases ih r a ha with h | h
                · have hr : r = ((c :: l).dropWhile Char.isDigit).drop 3 := (stripNum_some hnum).2.2
                  have hmem : a ∈ (c :: l).dropWhile Char.isDigit :=
                    List.drop_subset 3 _ (hr ▸ h)
                  exact Or.inl ((List.dropWhile_sublist Char.isDigit).subset hmem)
                · exact Or.inr h
            | none =>
              rw [sanitizeF_num_none hd hnum, List.mem_cons] at ha
              rcases ha with ha | ha
              · exact Or.inl (ha ▸ List.mem_cons_self _ _)
              · rcases ih l a ha with h | h
                · exact Or.inl (List.mem_cons_of_mem _ h)
                · exact Or.inr h
          · rw [sanitizeF_other hc hs (Bool.not_eq_true _ ▸ hd), List.mem_cons] at ha
            rcases ha with ha | ha
            · exact Or.inl (ha ▸ List.mem_cons_self _ _)
            · rcases ih l a ha with h | h
              · exact Or.inl (List.mem_cons_of_mem _ h)
              · exact Or.inr h

/--
Sanitizing never lengthens the text: each match is replaced by one space.
-/
theorem sanitizeF_length (n : Nat) :
    ∀ xs : List Char, (sanitizeF n xs).length ≤ xs.length := by
  induction n with
  | zero => exact fun xs => Nat.le_refl _
  | succ n ih =>
    intro xs
    cases xs with
    | nil => simp [sanitizeF]
    | cons c l =>
      by_cases hc : c = '<'
      · subst hc
        cases hft : findTagEnd l with
        | some r =>
          rw [sanitizeF_tag_some hft]
          have h1 := findTagEnd_length hft
          have h2 := ih r
          simp only [List.length_cons]
          omega
        | none =>
          rw [sanitizeF_tag_none hft]
          have := ih l
          simp only [List.length_cons]
          omega
      · by_cases hs : c = ' '
        · subst hs
          cases hq : stripQuot l with
          | some r =>
            rw [sanitizeF_quot_some hq]
            have hr : r = l.drop 6 := (stripQuot_some hq).2
            have h1 : r.length ≤ l.length := by
              rw [hr, List.length_drop]
              omega
            have h2 := ih r
            simp only [List.length_cons]
            omega
          | none =>
            rw [sanitizeF_quot_none hq]
            have := ih l
            simp only [List.length_cons]
            omega
        · by_cases hd : c.isDigit
          · cases hnum : stripNum (c :: l) with
            | some r =>
              rw [sanitizeF_num_some hd hnum]
              have h1 := stripNum_length hnum
              have h2 := ih r
              simp only [List.length_cons] at h1 ⊢
              omega
            | none =>
              rw [sanitizeF_num_none hd hnum]
              have := ih l
              simp only [List.length_cons]
              omega
          · rw [sanitizeF_other hc hs (Bool.not_eq_true _ ▸ hd)]
            have := ih l
            simp only [List.length_cons]
            omega

/--
With enough fuel the exact amount does not matter: every sanitizing step
consumes at least one input character.
-/
theorem sanitizeF_fuel (n : Nat) :
    ∀ (m : Nat) (xs : List Char), xs.length ≤ n → xs.length ≤ m →
      sanitizeF n xs = sanitizeF m xs := by
  induction n with
  | zero =>
    intro m xs hn _
    have hxs : xs = [] := List.length_eq_zero.mp (Nat.le_zero.mp hn)
    subst hxs
    rw [sanitizeF_nil, sanitizeF_nil]
  | succ n ih =>
    intro m xs hn hm
    cases xs with
    | nil => rw [sanitizeF_nil, sanitizeF_nil]
    | cons c l =>
      cases m with
      | zero => simp at hm
      | succ m =>
        simp only [List.length_cons, Nat.succ_le_succ_iff] at hn hm
        by_cases hc : c = '<'
        · subst hc
          cases hft : findTagEnd l with
          | some r =>
            have hr := findTagEnd_length hft
            rw [sanitizeF_tag_some hft, sanitizeF_tag_some hft,
              ih m r (by omega) (by omega)]
          | none =>
            rw [sanitizeF_tag_none hft, sanitizeF_tag_none hft, ih m l hn hm]
        · by_cases hs : c = ' '
          · subst hs
            cases hq : stripQuot l with
            | some r =>
              have hr : r = l.drop 6 := (stripQuot_some hq).2
              have hrl : r.length ≤ l.length := by
                rw [hr, List.length_drop]
                omega
              rw [sanitizeF_quot_some hq, sanitizeF_quot_some hq,
                ih m r (by omega) (by omega)]
            | none =>
              rw [sanitizeF_quot_none hq, sanitizeF_quot_none hq, ih m l hn hm]
          · by_cases hd : c.isDigit
            · cases hnum : stripNum (c :: l) with
              | some r =>
                have hr := stripNum_length hnum
                simp only [List.length_cons] at hr
                rw [sanitizeF_num_some hd hnum, sanitizeF_num_some hd hnum,
                  ih m r (by omega) (by omega)]
              | none =>
                rw [sanitizeF_num_none hd hnum, sanitizeF_num_none hd hnum, ih m l hn hm]
            · rw [sanitizeF_other hc hs (Bool.not_eq_true _ ▸ hd),
                sanitizeF_other hc hs (Bool.not_eq_true _ ▸ hd), ih m l hn hm]

/--
Characters that can take part in no sanitizing match except as tag interior:
not the ampersand of the quote entity, not the dash of the numbering prefix,
and not one of the characters that make a tag scan fail.
-/
def plainChar (c : Char) : Bool := !(c == '&') && !(c == '-') && !dotBlocker c

/--
Text all of whose characters are plain.
-/
def plainText (s : String) : Bool := s.data.all plainChar

/--
A plain character is not the ampersand.
-/
theorem plainChar_no_amp {a : Char} (h : plainChar a = true) : a ≠ '&' := by
  simp [plainChar] at h
  exact h.1.1

/--
A plain character is not the dash.
-/
theorem plainChar_no_dash {a : Char} (h : plainChar a = true) : a ≠ '-' := by
  simp [plainChar] at h
  exact h.1.2

/--
A plain character does not make the tag scan fail.
-/
theorem plainChar_no_blocker {a : Char} (h : plainChar a = true) : dotBlocker a = false := by
  simp [plainChar] at h
  exact h.2

/--
Sanitizing plain text yields plain text: the only character it introduces is
the space, which is plain.
-/
theorem sanitizeF_plain (n : Nat) {xs : List Char} (h : ∀ a ∈ xs, plainChar a = true) :
    ∀ a ∈ sanitizeF n xs, plainChar a = true := by
  intro a ha
  rcases sanitizeF_subset n xs a ha with h2 | h2
  · exact h a h2
  · subst h2
    decide

/--
On plain text one sanitizing pass is a fixed point of the next: the only
alternatives that can fire are tag matches, and the scan leaves a bracket in
place only when the remaining text contains no closing bracket at all, so
the output admits no further match.
-/
theorem sanitizeF_idem (n : Nat) :
    ∀ xs : List Char, xs.length ≤ n → (∀ a ∈ xs, plainChar a = true) →
      sanitizeF n (sanitizeF n xs) = sanitizeF n xs := by
  induction n with
  | zero =>
    intro xs hn _
    have hxs : xs = [] := List.length_eq_zero.mp (Nat.le_zero.mp hn)
    subst hxs
    rfl
  | succ n ih =>
    intro xs hn hplain
    cases xs with
    | nil => simp [sanitizeF_nil]
    | cons c l =>
      simp only [List.length_cons, Nat.succ_le_succ_iff] at hn
      have hplc : plainChar c = true := hplain c (List.mem_cons_self _ _)
      have hTail : ∀ a ∈ l, plainChar a = true :=
        fun a ha => hplain a (List.mem_cons_of_mem _ ha)
      by_cases hc : c = '<'
      · subst hc
        cases hft : findTagEnd l with
        | some r =>
          have hrplain : ∀ a ∈ r, plainChar a = true :=
            fun a ha => hTail a (findTagEnd_subset hft a ha)
          have hq : stripQuot (sanitizeF n r) = none := by
            apply stripQuot_none_of_no_amp
            intro hmem
            exact absurd rfl (plainChar_no_amp (sanitizeF_plain n hrplain '&' hmem))
          have hrlen := findTagEnd_length hft
          rw [sanitizeF_tag_some hft, sanitizeF_quot_none hq, ih r (by omega) hrplain]
        | none =>
          have hblock : ∀ a ∈ l, dotBlocker a = false :=
            fun a ha => plainChar_no_blocker (hTail a ha)
          have hnog : '>' ∉ l := findTagEnd_none_no_gt hblock hft
          have hnogw : '>' ∉ sanitizeF n l := by
            intro hmem
            rcases sanitizeF_subset n l '>' hmem with h2 | h2
            · exact hnog h2
            · exact absurd h2 (by decide)
          rw [sanitizeF_tag_none hft, sanitizeF_tag_none (findTagEnd_eq_none hnogw),
            ih l hn hTail]
      · by_cases hs : c = ' '
        · subst hs
          have hq : stripQuot l = none := by
            apply stripQuot_none_of_no_amp
            intro hmem
            exact absurd rfl (plainChar_no_amp (hTail '&' hmem))
          have hq2 : stripQuot (sanitizeF n l) = none := by
            apply stripQuot_none_of_no_amp
            intro hmem
            exact absurd rfl (plainChar_no_amp (sanitizeF_plain n hTail '&' hmem))
          rw [sanitizeF_quot_none hq, sanitizeF_quot_none hq2, ih l hn hTail]
        · by_cases hd : c.isDigit
          · have hnd : '-' ∉ c :: l := by
              intro hmem
              rcases List.mem_cons.mp hmem with h2 | h2
              · exact absurd rfl (h2 ▸ plainChar_no_dash hplc)
              · exact absurd rfl (plainChar_no_dash (hTail '-' h2))
            have hnd2 : '-' ∉ c :: sanitizeF n l := by
              intro hmem
              rcases List.mem_cons.mp hmem with h2 | h2
              · exact absurd rfl (h2 ▸ plainChar_no_dash hplc)
              · exact absurd rfl (plainChar_no_dash (sanitizeF_plain n hTail '-' h2))
            rw [sanitizeF_num_none hd (stripNum_none_of_no_dash hnd),
              sanitizeF_num_none hd (stripNum_none_of_no_dash hnd2), ih l hn hTail]
          · rw [sanitizeF_other hc hs (Bool.not_eq_true _ ▸ hd),
              sanitizeF_other hc hs (Bool.not_eq_true _ ▸ hd), ih l hn hTail]

/--
C7 (counterexample): the sanitizing replacement is not idempotent: on
`<b>&quot;` the first pass removes the tag and leaves ` &quot;` (the quote
entity was not preceded by a space in the original, and the scan resumes
after the replaced tag), while a second pass now matches ` &quot;` and
produces a single space.  Since the diacritic-stripped component is a
function of the clean text, the two normalization results differ as well.
-/
theorem c7_counterexample :
    sanitize (sanitize "<b>&quot;") ≠ sanitize "<b>&quot;" := by decide

/--
C7 (amended): normalization is idempotent on text free of the ampersand,
the dash, and the characters on which the regex dot fails (carriage return
and the Unicode line and paragraph separators): for such text only
tag matches can fire, and a pass leaves no new match behind, so
`normalize(normalize(x).clean) = normalize(x)`.  On arbitrary text a
removed match can expose a fresh ` &quot;` or `digits - ` match, and
idempotence fails.
-/
theorem c7_theorem (s : String) (h : plainText s = true) :
    sanitize (sanitize s) = sanitize s := by
  have hplain : ∀ a ∈ s.data, plainChar a = true := by
    intro a ha
    exact List.all_eq_true.mp h a ha
  show String.mk (sanitizeF (sanitizeChars s.data).length (sanitizeChars s.data))
      = String.mk (sanitizeChars s.data)
  congr 1
  unfold sanitizeChars
  rw [sanitizeF_fuel (sanitizeF s.data.length s.data).length s.data.length
    (sanitizeF s.data.length s.data) (Nat.le_refl _) (sanitizeF_length _ _)]
  exact sanitizeF_idem s.data.length s.data (Nat.le_refl _) hplain

/--
C7 (witness): the amended idempotence applied to a concrete tagged text.
-/
theorem c7_witness :
    plainText "<b>ok</b" = true ∧
    sanitize (sanitize "<b>ok</b") = sanitize "<b>ok</b" :=
  ⟨by decide, c7_theorem "<b>ok</b" (by decide)⟩

end Shamela
